import Mathlib

/-!
Verification of the black-frame detector core (`black_frame_detector.py`).

The Python source is shallowly embedded: machine text is modelled as
`List Char`, Python `int` as `ℤ` (or `ℕ` for regex-parsed digit groups),
Python `float` as `ℚ`, and Python `None` as `Option.none`.  Each
definition names the source function it embeds.
-/

/-- Embeds the `BlackFrameHit` dataclass (source lines 79-84): one parsed
blackframe detection.  `frame` is mandatory; the other fields are `None`
when the corresponding regex group is absent. -/
structure BlackFrameHit where
  frame : ℤ
  time_s : Option ℚ
  pblack : Option ℚ
  pts : Option ℤ
deriving DecidableEq, Repr

/-- Embeds the `BlackRange` dataclass (source lines 86-94): a contiguous
run of detections summarised by `build_ranges`. -/
structure BlackRange where
  start_frame : ℤ
  end_frame : ℤ
  start_time_s : Option ℚ
  end_time_s : Option ℚ
  length_frames : ℤ
  avg_pblack : Option ℚ
  min_pblack : Option ℚ
deriving DecidableEq, Repr

/-- The sort relation used by `sorted(hits, key=lambda h: h.frame)`
(source line 172). -/
def hit_le (a b : BlackFrameHit) : Prop := a.frame ≤ b.frame

instance : DecidableRel hit_le := fun a b => inferInstanceAs (Decidable (a.frame ≤ b.frame))

instance : IsTotal BlackFrameHit hit_le := ⟨fun a b => le_total a.frame b.frame⟩

instance : IsTrans BlackFrameHit hit_le := ⟨fun _ _ _ hab hbc => le_trans hab hbc⟩

/-- Embeds `sorted(hits, key=lambda h: h.frame)` (source line 172).
Python `sorted` is a stable sort by the key; insertion sort is a stable
sort by the same key, so the two agree element for element. -/
def sortHits (hits : List BlackFrameHit) : List BlackFrameHit :=
  List.insertionSort hit_le hits

/-- Embeds the grouping loop of `build_ranges` (source lines 175, 200-212):
partition the (sorted) hit list into maximal segments in which each
element's frame is exactly one more than its predecessor's. -/
def groupRuns : List BlackFrameHit → List (List BlackFrameHit)
  | [] => []
  | [h] => [[h]]
  | h :: h2 :: t =>
    match groupRuns (h2 :: t) with
    | [] => [[h]]
    | g :: gs =>
      if h2.frame = h.frame + 1 then (h :: g) :: gs else [h] :: g :: gs

/-- Embeds the local `finalize(group)` of `build_ranges` (source lines
177-198): summarise one run, or `None` when the run is empty or shorter
than `min_run_frames`. -/
def finalize (min_run_frames : ℤ) : List BlackFrameHit → Option BlackRange
  | [] => none
  | s :: rest =>
    let e := rest.getLastD s
    let length : ℤ := e.frame - s.frame + 1
    if length < min_run_frames then none
    else
      let pvals := (s :: rest).filterMap (fun h => h.pblack)
      some ⟨s.frame, e.frame, s.time_s, e.time_s, length,
        if pvals.isEmpty then none else some (pvals.sum / pvals.length),
        pvals.min?⟩

/-- Embeds `build_ranges(hits, min_run_frames)` (source lines 168-214). -/
def build_ranges (hits : List BlackFrameHit) (min_run_frames : ℤ) : List BlackRange :=
  match hits with
  | [] => []
  | _ :: _ => (groupRuns (sortHits hits)).filterMap (finalize min_run_frames)

/-- Embeds Python `str.split(sep)` for a one-character separator, as used
by `buf.split("\n")` (source line 991) and `rate.split("/")` (source
line 840).  Always returns a non-empty list; separators are not kept. -/
def splitOnChar (sep : Char) : List Char → List (List Char)
  | [] => [[]]
  | x :: xs =>
    let r := splitOnChar sep xs
    if x = sep then [] :: r else (x :: r.headD []) :: r.tail

/-- Embeds Python `line.rstrip("\r")` (source lines 995 and 1035): remove
every trailing carriage return. -/
def rstrip_cr (s : List Char) : List Char :=
  (s.reverse.dropWhile (fun c => c = '\r')).reverse

/-- Embeds the static method `_split_complete_lines(buf)` (source lines
984-996): split off the complete lines of the buffer, keeping the
unterminated tail as the remainder; empty complete lines are suppressed
and each kept line loses its trailing carriage returns. -/
def split_complete_lines (buf : List Char) : List (List Char) × List Char :=
  if buf.contains '\n' = false then ([], buf)
  else
    let parts := splitOnChar '\n' buf
    (((parts.dropLast.filter (fun l => l ≠ [])).map rstrip_cr), parts.getLastD [])

/-- Embeds one arrival of a chunk on a stream (source lines 904-906 and
975-977): the chunk is appended to the carried buffer, which is then
split; the remainder becomes the new carried buffer. -/
def feed_chunk (buf chunk : List Char) : List (List Char) × List Char :=
  split_complete_lines (buf ++ chunk)

/-- Feeds a whole sequence of chunks through the splitter, starting from
the carried buffer `buf`, collecting every complete line in order and
returning the final carried remainder. -/
def feed_all (buf : List Char) : List (List Char) → List (List Char) × List Char
  | [] => ([], buf)
  | c :: cs =>
    let fed := feed_chunk buf c
    let rest := feed_all fed.2 cs
    (fed.1 ++ rest.1, rest.2)

/-- Re-joins split output: each complete line followed by the newline that
terminated it, then the remainder. -/
def reconstruct (lines : List (List Char)) (remainder : List Char) : List Char :=
  (lines.map (fun l => l ++ ['\n'])).flatten ++ remainder

/-- The processed form of the complete-line parts of a buffer: empty lines
suppressed, trailing carriage returns stripped, newline terminators
restored. -/
def norm_parts (parts : List (List Char)) : List Char :=
  (((parts.filter (fun l => l ≠ [])).map rstrip_cr).map (fun l => l ++ ['\n'])).flatten

/-- What the splitter preserves of an input stream: every complete line
with its trailing carriage returns removed and fully empty lines dropped,
followed by the unterminated tail. -/
def normalize_stream (input : List Char) : List Char :=
  norm_parts (splitOnChar '\n' input).dropLast ++ (splitOnChar '\n' input).getLastD []

/-- The whitespace class of Python's regex `\s`. -/
def py_isspace (c : Char) : Bool :=
  c = ' ' || c = '\t' || c = '\n' || c = '\r' || c = '\x0b' || c = '\x0c'

/-- Numeric value of a non-empty all-digit group, as produced by
`int(...)` on a `\d+` regex capture. -/
def digitsToNat (ds : List Char) : ℕ :=
  ds.foldl (fun a c => 10 * a + (c.toNat - 48)) 0

/-- Parses a `\d+` capture group: `some` of its value when the text is a
non-empty run of decimal digits. -/
def parse_digits (cs : List Char) : Option ℕ :=
  if cs ≠ [] ∧ cs.all Char.isDigit then some (digitsToNat cs) else none

/-- Parses an unsigned decimal numeral (`\d+` optionally followed by
`.` and `\d+`) to an exact rational, the restriction of Python `float()`
to the numerals the probe and the analyzer actually emit. -/
def parse_float (cs : List Char) : Option ℚ :=
  match splitOnChar '.' cs with
  | [intPart] => (parse_digits intPart).map (fun n => (n : ℚ))
  | [intPart, fracPart] =>
    match parse_digits intPart, parse_digits fracPart with
    | some n, some f => some ((n : ℚ) + (f : ℚ) / ((10 : ℚ) ^ fracPart.length))
    | _, _ => none
  | _ => none

/-- Embeds the regex `PROGRESS_OUT_TIME_MS_RE` (source line 106),
`^out_time_ms=(\d+)\s*$`: the captured digit group, when the line
matches. -/
def parse_out_time_ms (line : List Char) : Option ℕ :=
  if line.take 12 = "out_time_ms=".toList then
    let rest := line.drop 12
    let digs := rest.takeWhile Char.isDigit
    let tail := rest.dropWhile Char.isDigit
    if digs ≠ [] ∧ tail.all py_isspace then some (digitsToNat digs) else none
  else none

/-- Embeds the regex `PROGRESS_END_RE` (source line 107),
`^progress=end\s*$`. -/
def parse_progress_end (line : List Char) : Bool :=
  (line.take 12 = "progress=end".toList : Bool) && (line.drop 12).all py_isspace

/-- A recognised event on the progress (stdout) stream, per the two
grammars of source lines 106-107. -/
inductive ProgressEvent where
  | outTime (us : ℕ)
  | endOfStream
deriving DecidableEq, Repr

/-- The classification a progress line receives in
`_on_ffmpeg_stdout_chunk` (source lines 907-920): the out-time grammar is
tried first, then the end-of-stream marker; any other line is ignored. -/
def parse_progress_line (line : List Char) : Option ProgressEvent :=
  match parse_out_time_ms line with
  | some us => some (ProgressEvent.outTime us)
  | none => if parse_progress_end line then some ProgressEvent.endOfStream else none

/-- A regex word character, for `\b` boundary checks. -/
def is_word_char (c : Char) : Bool := c.isAlphanum || c = '_'

/-- `token_at tok need prevWord s`: does `tok` immediately followed by a
character satisfying `need` start the suffix `s`, with the regex word
boundary `\b` satisfied against the preceding character (`prevWord` is
whether that character is a word character)? -/
def token_at (tok : List Char) (need : Char → Bool) (prevWord : Bool) (s : List Char) : Bool :=
  !prevWord &&
  tok.isPrefixOf s &&
  (match (s.drop tok.length).head? with
   | some c => need c
   | none => false)

/-- Scan for the first position where `tok` matches at a word boundary
with its first following character satisfying `need`; return the suffix
after the token.  This is lazy-search (`.*?\btok`) regex semantics.
`prevWord` says whether the character just before the scanned region is
a word character; at every call site below it is `true`, because the
region follows the marker (ending in `e`) or a consumed digit capture. -/
def find_token (tok : List Char) (need : Char → Bool) : Bool → List Char → Option (List Char)
  | _, [] => none
  | prevWord, c :: rest =>
    if token_at tok need prevWord (c :: rest) then some ((c :: rest).drop tok.length)
    else find_token tok need (is_word_char c) rest

/-- Scan for the first occurrence of the plain substring `tok` (no
boundary requirement); return the suffix after it. -/
def find_substring (tok : List Char) : List Char → Option (List Char)
  | [] => if tok = [] then some [] else none
  | c :: rest =>
    if tok.isPrefixOf (c :: rest) then some ((c :: rest).drop tok.length)
    else find_substring tok rest

/-- Consume a greedy `\d+(?:\.\d+)?` float capture from the front of `s`:
(captured value, rest). -/
def take_float (s : List Char) : ℚ × List Char :=
  let digs := s.takeWhile Char.isDigit
  let rest := s.dropWhile Char.isDigit
  match rest with
  | '.' :: rest2 =>
    let fdigs := rest2.takeWhile Char.isDigit
    if fdigs = [] then ((digitsToNat digs : ℚ), rest)
    else (((digitsToNat digs : ℚ) + (digitsToNat fdigs : ℚ) / (10 : ℚ) ^ fdigs.length),
      rest2.dropWhile Char.isDigit)
  | _ => ((digitsToNat digs : ℚ), rest)

/-- Consume a greedy `\d+` integer capture from the front of `s`. -/
def take_int (s : List Char) : ℤ × List Char :=
  ((digitsToNat (s.takeWhile Char.isDigit) : ℤ), s.dropWhile Char.isDigit)

/-- One optional group `(?:.*?\btok:(\d+(?:\.\d+)?))?`: search forward for
the token; on success capture its float and continue after it, otherwise
capture nothing and stay put. -/
def opt_float_group (tok : List Char) (s : List Char) : Option ℚ × List Char :=
  match find_token tok Char.isDigit true s with
  | some after => let t := take_float after; (some t.1, t.2)
  | none => (none, s)

/-- One optional group `(?:.*?\btok:(\d+))?` with an integer capture. -/
def opt_int_group (tok : List Char) (s : List Char) : Option ℤ × List Char :=
  match find_token tok Char.isDigit true s with
  | some after => let t := take_int after; (some t.1, t.2)
  | none => (none, s)

/-- Embeds `_parse_blackframe_line` (source lines 960-969) with the regex
`BLACKFRAME_LINE_RE` (source lines 98-103): after the literal marker
`Parsed_blackframe`, a mandatory `\bframe:(\d+)` and optional
`\bpblack:`, `\bpts:`, `\bt:` captures searched left to right. -/
def parse_blackframe_line (line : List Char) : Option BlackFrameHit :=
  match find_substring "Parsed_blackframe".toList line with
  | none => none
  | some rest =>
    match find_token "frame:".toList Char.isDigit true rest with
    | none => none
    | some afterFrame =>
      let f := take_int afterFrame
      let pb := opt_float_group "pblack:".toList f.2
      let pt := opt_int_group "pts:".toList pb.2
      let tv := opt_float_group "t:".toList pt.2
      some ⟨f.1, tv.1, pb.1, pt.1⟩

/-- Embeds the frame-rate branch of `_on_ffprobe_finished` (source lines
838-841): split the rational string on `/`; the rate is
`float(num)/float(den)` when the denominator is nonzero, and `None`
otherwise.  Any exception in the `try` block (wrong number of parts from
the split, or an unparseable numeral) reaches the handler at source lines
842-845, which also leaves the rate `None`. -/
def parse_frame_rate (rate : List Char) : Option ℚ :=
  match splitOnChar '/' rate with
  | [num, den] =>
    match parse_float num, parse_float den with
    | some n, some d => if d ≠ 0 then some (n / d) else none
    | _, _ => none
  | _ => none

/-- The exact rational value of the float literal `0.5` (source line 935). -/
def half : ℚ := ⟨1, 2, by decide, Nat.coprime_one_left 2⟩

/-- One microsecond expressed in seconds: the exact rational 10^-6.  A
probe duration below this value truncates to zero integer microseconds
in `_run_ffmpeg`'s fraction divisor. -/
def usec : ℚ := ⟨1, 1000000, by decide, Nat.coprime_one_left 1000000⟩

/-- Embeds the fraction computation of `_on_ffmpeg_stdout_chunk` (source
lines 910-913): `out_time_ms` carries microseconds, the duration is
truncated to integer microseconds by `int(...)`, and the quotient is
clamped to `[0, 1]`. -/
def progress_fraction (duration_s : ℚ) (out_time_us : ℕ) : ℚ :=
  let dur_us : ℤ := ⌊duration_s * 1000000⌋
  max 0 (min 1 ((out_time_us : ℚ) / (dur_us : ℚ)))

/-- Embeds the per-line guard of `_on_ffmpeg_stdout_chunk` (source lines
908-917): a fraction is produced only for a line matching the out-time
grammar while `self.video_duration_s` is truthy and strictly positive;
every other case leaves the progress display untouched (`none`). -/
def on_progress_line (video_duration_s : Option ℚ) (line : List Char) : Option ℚ :=
  match parse_out_time_ms line with
  | none => none
  | some us =>
    match video_duration_s with
    | none => none
    | some d => if 0 < d then some (progress_fraction d us) else none

/-- Embeds `_update_progress_eta` (source lines 929-957).  `elapsed` is
the sampled `time.time() - self._analysis_start_time`; it is `none` when
`self._analysis_start_time` is `None`.  The result is the remaining-time
value displayed, or `none` when the update returns without an ETA. -/
def update_progress_eta (frac : ℚ) (elapsed : Option ℚ) : Option ℚ :=
  if frac ≤ 0 then none
  else
    match elapsed with
    | none => none
    | some el =>
      if el < half then none
      else some (max 0 (el / frac - el))

/-- The buffered tail state of one analyze session when the process
exits: the two stream remainders and the detections parsed so far. -/
structure SessionTailState where
  stdout_buf : List Char
  stderr_buf : List Char
  hits : List BlackFrameHit
deriving Repr

/-- Embeds the flush step of `_on_ffmpeg_finished` (source lines
1028-1042).  The handler parses the buffered stderr remainder (stripped
of trailing carriage returns) as one final partial line and appends any
detection to `self.hits`; it never reads `self._stdout_buf`, so no
progress event is produced from the stdout remainder — the second
component is the (empty) list of progress events processed here. -/
def on_ffmpeg_finished_flush (st : SessionTailState) : List BlackFrameHit × List ProgressEvent :=
  (st.hits ++
    (if st.stderr_buf ≠ [] then (parse_blackframe_line (rstrip_cr st.stderr_buf)).toList else []),
   [])

/-- Follows the spec's words (§4.5): "On process exit: flush both
splitters' buffered remainders as final (partial, unterminated) lines
through EventParser before declaring completion".  Unlike the source,
this variant also runs the stdout remainder through the progress-line
parser. -/
def spec_finished_flush (st : SessionTailState) : List BlackFrameHit × List ProgressEvent :=
  (st.hits ++
    (if st.stderr_buf ≠ [] then (parse_blackframe_line (rstrip_cr st.stderr_buf)).toList else []),
   if st.stdout_buf ≠ [] then (parse_progress_line (rstrip_cr st.stdout_buf)).toList else [])

/-- What one queued file's external processes did, as observed by the
orchestrator: the probe failed (nonzero exit or no output, source line
826), the analyze process failed to start within the timeout (source
line 889), or the analyze process ran, streaming `hits` parsed
detections, and exited with `exitCode` (source line 1044). -/
inductive FileEvent where
  | probeFail
  | analyzeStartFail
  | analyzeExit (hits : List BlackFrameHit) (exitCode : ℤ)
deriving DecidableEq, Repr

/-- The per-file record committed to `all_hits` / `all_ranges`, plus the
failure label shown on the list item (source lines 1083-1087); `none`
labels a succeeded file. -/
structure FileOutcome where
  hits : List BlackFrameHit
  ranges : List BlackRange
  label : Option String
deriving DecidableEq, Repr

/-- Embeds `_record_failure_and_advance` (source lines 1083-1090): the
file is committed with empty detection and range lists and the failure
label. -/
def record_failure (label : String) : FileOutcome := ⟨[], [], some label⟩

/-- Embeds the per-file outcome of one pass of the orchestrator
(`_on_ffprobe_finished`, `_run_ffmpeg`, `_on_ffmpeg_finished`, source
lines 819-1090): probe failure and analyze start failure commit a
failure record without running further; a nonzero analyze exit discards
the scratch `self.hits` and commits a failure record (source lines
1044-1047); exit code 0 sorts the hits and commits them with their
ranges (source lines 1050-1059), ranges being built only when the
group-ranges checkbox is on (source lines 1052-1055). -/
def process_file (group_ranges : Bool) (min_run_frames : ℤ) : FileEvent → FileOutcome
  | FileEvent.probeFail => record_failure "FAILED - probe"
  | FileEvent.analyzeStartFail => record_failure "FAILED - ffmpeg start"
  | FileEvent.analyzeExit hits exitCode =>
    if exitCode ≠ 0 then record_failure "FAILED"
    else
      ⟨sortHits hits,
       if group_ranges then build_ranges (sortHits hits) min_run_frames else [],
       none⟩

/-- Embeds the queue advance loop (`_start_next_file` and the tails of
`_on_ffmpeg_finished` / `_record_failure_and_advance`, source lines
739-763 and 1076-1090) for an uncancelled batch: every queued file is
processed in order and committed exactly one outcome; after each file the
index advances unconditionally. -/
def run_batch (group_ranges : Bool) (min_run_frames : ℤ)
    (files : List (String × FileEvent)) : List (String × FileOutcome) :=
  files.map (fun pe => (pe.1, process_file group_ranges min_run_frames pe.2))

/-- A hit with only a frame number, as used by the spec's worked example. -/
def bareHit (n : ℤ) : BlackFrameHit := ⟨n, none, none, none⟩


/-! ### Lemmas about the line splitter -/

theorem splitOnChar_cons_self (sep : Char) (xs : List Char) :
    splitOnChar sep (sep :: xs) = [] :: splitOnChar sep xs := by
  simp [splitOnChar]

theorem splitOnChar_cons_ne (sep x : Char) (xs : List Char) (hx : x ≠ sep) :
    splitOnChar sep (x :: xs) =
      (x :: (splitOnChar sep xs).headD []) :: (splitOnChar sep xs).tail := by
  simp [splitOnChar, hx]

theorem splitOnChar_ne_nil (sep : Char) (l : List Char) : splitOnChar sep l ≠ [] := by
  cases l with
  | nil => simp [splitOnChar]
  | cons x xs =>
    simp only [splitOnChar]
    split <;> simp

theorem splitOnChar_of_not_mem (sep : Char) (l : List Char) (h : sep ∉ l) :
    splitOnChar sep l = [l] := by
  induction l with
  | nil => rfl
  | cons x xs ih =>
    simp only [List.mem_cons, not_or] at h
    rw [splitOnChar_cons_ne sep x xs (fun hx => h.1 hx.symm), ih h.2]
    rfl

theorem not_mem_getLastD_splitOnChar (sep : Char) (l : List Char) :
    sep ∉ (splitOnChar sep l).getLastD [] := by
  induction l with
  | nil => simp [splitOnChar]
  | cons x xs ih =>
    rcases hr : splitOnChar sep xs with _ | ⟨p, ps⟩
    · exact absurd hr (splitOnChar_ne_nil sep xs)
    · rw [hr] at ih
      by_cases hx : x = sep
      · subst hx
        rw [splitOnChar_cons_self, hr, List.getLastD_cons]
        exact ih
      · rw [splitOnChar_cons_ne sep x xs hx, hr]
        cases ps with
        | nil =>
          simp only [List.headD_cons, List.tail_cons, List.getLastD_cons, List.getLastD_nil]
          simp only [List.getLastD_cons, List.getLastD_nil] at ih
          simp only [List.mem_cons, not_or]
          exact ⟨fun he => hx he.symm, ih⟩
        | cons q qs =>
          simp only [List.headD_cons, List.tail_cons, List.getLastD_cons] at ih ⊢
          exact ih

theorem splitOnChar_append (sep : Char) (u v : List Char) :
    splitOnChar sep (u ++ v) =
      (splitOnChar sep u).dropLast ++
        splitOnChar sep ((splitOnChar sep u).getLastD [] ++ v) := by
  induction u with
  | nil => simp [splitOnChar]
  | cons x u ih =>
    rcases hr : splitOnChar sep u with _ | ⟨p, ps⟩
    · exact absurd hr (splitOnChar_ne_nil sep u)
    · rw [hr] at ih
      by_cases hx : x = sep
      · subst hx
        rw [List.cons_append, splitOnChar_cons_self, splitOnChar_cons_self, hr, ih,
          List.dropLast_cons_of_ne_nil (List.cons_ne_nil p ps)]
        rw [show ([] :: p :: ps).getLastD [] = (p :: ps).getLastD [] from
          List.getLastD_cons _ _ _]
        simp
      · rw [List.cons_append, splitOnChar_cons_ne sep x _ hx, splitOnChar_cons_ne sep x u hx,
          hr, ih]
        cases ps with
        | nil =>
          simp only [List.dropLast_nil, List.nil_append, List.headD_cons, List.tail_cons,
            List.dropLast_single, List.getLastD_cons, List.getLastD_nil]
          rw [List.cons_append, splitOnChar_cons_ne sep x _ hx]
        | cons q qs =>
          simp only [List.headD_cons, List.tail_cons]
          rw [List.dropLast_cons_of_ne_nil (List.cons_ne_nil q qs),
            List.dropLast_cons_of_ne_nil (List.cons_ne_nil q qs)]
          simp only [List.getLastD_cons, List.cons_append, List.headD_cons, List.tail_cons]

theorem getLastD_default_irrel (b : List Char) (bs : List (List Char)) (d d' : List Char) :
    (b :: bs).getLastD d = (b :: bs).getLastD d' := by
  rw [List.getLastD_cons, List.getLastD_cons]

theorem getLastD_append_of_ne_nil (A B : List (List Char)) (hB : B ≠ []) (d : List Char) :
    (A ++ B).getLastD d = B.getLastD d := by
  induction A generalizing d with
  | nil => rfl
  | cons a A ih =>
    rcases B with _ | ⟨b, bs⟩
    · exact absurd rfl hB
    · rw [List.cons_append, List.getLastD_cons]
      exact (ih a).trans (getLastD_default_irrel b bs a d)

theorem norm_parts_append (a b : List (List Char)) :
    norm_parts (a ++ b) = norm_parts a ++ norm_parts b := by
  simp [norm_parts]

theorem split_complete_lines_eq (buf : List Char) :
    split_complete_lines buf =
      (((splitOnChar '\n' buf).dropLast.filter (fun l => l ≠ [])).map rstrip_cr,
        (splitOnChar '\n' buf).getLastD []) := by
  by_cases h : buf.contains '\n' = true
  · rw [split_complete_lines, if_neg (by rw [h]; simp)]
  · have h' : buf.contains '\n' = false := eq_false_of_ne_true h
    have hnm : '\n' ∉ buf := by simpa using h'
    rw [split_complete_lines, if_pos (by rw [h']), splitOnChar_of_not_mem '\n' buf hnm]
    rfl

theorem normalize_stream_of_not_mem (l : List Char) (h : '\n' ∉ l) :
    normalize_stream l = l := by
  rw [normalize_stream, splitOnChar_of_not_mem '\n' l h]
  rfl

theorem normalize_stream_append (u v : List Char) :
    normalize_stream (u ++ v) =
      norm_parts (splitOnChar '\n' u).dropLast ++
        normalize_stream ((splitOnChar '\n' u).getLastD [] ++ v) := by
  have hB : splitOnChar '\n' ((splitOnChar '\n' u).getLastD [] ++ v) ≠ [] :=
    splitOnChar_ne_nil _ _
  rw [normalize_stream, splitOnChar_append '\n' u v,
    List.dropLast_append_of_ne_nil _ hB, norm_parts_append,
    getLastD_append_of_ne_nil _ _ hB [], normalize_stream, List.append_assoc]

theorem feed_all_reconstruct (cs : List (List Char)) (buf : List Char) (h : '\n' ∉ buf) :
    reconstruct (feed_all buf cs).1 (feed_all buf cs).2 =
      normalize_stream (buf ++ cs.flatten) := by
  induction cs generalizing buf with
  | nil =>
    rw [feed_all, List.flatten_nil, List.append_nil, normalize_stream_of_not_mem buf h,
      reconstruct]
    rfl
  | cons c cs ih =>
    have hsplit := split_complete_lines_eq (buf ++ c)
    have hrem : '\n' ∉ (split_complete_lines (buf ++ c)).2 := by
      rw [hsplit]
      exact not_mem_getLastD_splitOnChar '\n' (buf ++ c)
    have ihc := ih (split_complete_lines (buf ++ c)).2 hrem
    rw [feed_all]
    simp only [feed_chunk, reconstruct, List.map_append, List.flatten_append,
      List.append_assoc]
    rw [show ((feed_all (split_complete_lines (buf ++ c)).2 cs).1.map
        (fun l => l ++ ['\n'])).flatten ++ (feed_all (split_complete_lines (buf ++ c)).2 cs).2 =
      reconstruct (feed_all (split_complete_lines (buf ++ c)).2 cs).1
        (feed_all (split_complete_lines (buf ++ c)).2 cs).2 from rfl]
    rw [ihc, List.flatten_cons, ← List.append_assoc, normalize_stream_append (buf ++ c)]
    rw [show (split_complete_lines (buf ++ c)).2 = (splitOnChar '\n' (buf ++ c)).getLastD []
      from by rw [hsplit]]
    rw [show (split_complete_lines (buf ++ c)).1 =
      ((splitOnChar '\n' (buf ++ c)).dropLast.filter (fun l => l ≠ [])).map rstrip_cr
      from by rw [hsplit]]
    rfl

/-! ### Lemmas about build_ranges -/

theorem groupRuns_cons_cons (h h2 : BlackFrameHit) (t g : List BlackFrameHit)
    (gs : List (List BlackFrameHit)) (hg : groupRuns (h2 :: t) = g :: gs) :
    groupRuns (h :: h2 :: t) =
      if h2.frame = h.frame + 1 then (h :: g) :: gs else [h] :: g :: gs := by
  rw [groupRuns, hg]

theorem groupRuns_cons_shape (h : BlackFrameHit) (l : List BlackFrameHit) :
    ∃ g gs, groupRuns (h :: l) = (h :: g) :: gs := by
  induction l generalizing h with
  | nil => exact ⟨[], [], rfl⟩
  | cons h2 t ih =>
    obtain ⟨g, gs, hg⟩ := ih h2
    by_cases hf : h2.frame = h.frame + 1
    · exact ⟨h2 :: g, gs, by rw [groupRuns_cons_cons h h2 t _ _ hg, if_pos hf]⟩
    · exact ⟨[], (h2 :: g) :: gs, by rw [groupRuns_cons_cons h h2 t _ _ hg, if_neg hf]⟩

theorem groupRuns_flatten (l : List BlackFrameHit) : (groupRuns l).flatten = l := by
  induction l with
  | nil => rfl
  | cons h t ih =>
    cases t with
    | nil => rfl
    | cons h2 t2 =>
      obtain ⟨g, gs, hg⟩ := groupRuns_cons_shape h2 t2
      rw [hg] at ih
      rw [groupRuns_cons_cons h h2 t2 _ _ hg]
      simp only [List.flatten_cons] at ih
      by_cases hf : h2.frame = h.frame + 1
      · rw [if_pos hf]
        simp only [List.flatten_cons, List.cons_append, ih]
      · rw [if_neg hf]
        simp only [List.flatten_cons, List.cons_append, List.nil_append, ih]

theorem groupRuns_chain (l : List BlackFrameHit) :
    ∀ g ∈ groupRuns l, g.Chain' (fun a b => b.frame = a.frame + 1) := by
  induction l with
  | nil => intro g hg; simp [groupRuns] at hg
  | cons h t ih =>
    cases t with
    | nil =>
      intro g hg
      simp only [groupRuns, List.mem_singleton] at hg
      subst hg
      exact List.chain'_singleton h
    | cons h2 t2 =>
      obtain ⟨g0, gs0, hg0⟩ := groupRuns_cons_shape h2 t2
      rw [hg0] at ih
      intro g hg
      rw [groupRuns_cons_cons h h2 t2 _ _ hg0] at hg
      by_cases hf : h2.frame = h.frame + 1
      · rw [if_pos hf] at hg
        rcases List.mem_cons.mp hg with hgh | hgs
        · subst hgh
          exact List.chain'_cons.mpr ⟨hf, ih (h2 :: g0) (List.mem_cons_self _ _)⟩
        · exact ih g (List.mem_cons_of_mem _ hgs)
      · rw [if_neg hf] at hg
        rcases List.mem_cons.mp hg with hgh | hgs
        · subst hgh
          exact List.chain'_singleton h
        · exact ih g hgs

theorem getLastD_mem_cons (rest : List BlackFrameHit) (s : BlackFrameHit) :
    rest.getLastD s ∈ s :: rest := by
  induction rest generalizing s with
  | nil => exact List.mem_singleton.mpr rfl
  | cons b t ih =>
    rw [List.getLastD_cons]
    exact List.mem_cons_of_mem s (ih b)

theorem chain_head_le_getLastD (rest : List BlackFrameHit) (s : BlackFrameHit)
    (hc : (s :: rest).Chain' (fun a b => b.frame = a.frame + 1)) :
    s.frame ≤ (rest.getLastD s).frame := by
  induction rest generalizing s with
  | nil => exact le_refl _
  | cons b t ih =>
    obtain ⟨hsb, hbt⟩ := List.chain'_cons.mp hc
    rw [List.getLastD_cons]
    calc s.frame ≤ s.frame + 1 := by omega
    _ = b.frame := hsb.symm
    _ ≤ (t.getLastD b).frame := ih b hbt

theorem finalize_eq_some (m : ℤ) (s : BlackFrameHit) (rest : List BlackFrameHit)
    (r : BlackRange) (h : finalize m (s :: rest) = some r) :
    r = ⟨s.frame, (rest.getLastD s).frame, s.time_s, (rest.getLastD s).time_s,
        (rest.getLastD s).frame - s.frame + 1,
        if ((s :: rest).filterMap (fun h => h.pblack)).isEmpty then none
        else some (((s :: rest).filterMap (fun h => h.pblack)).sum /
          ((s :: rest).filterMap (fun h => h.pblack)).length),
        ((s :: rest).filterMap (fun h => h.pblack)).min?⟩ ∧
      m ≤ (rest.getLastD s).frame - s.frame + 1 := by
  rw [finalize] at h
  by_cases hlen : (rest.getLastD s).frame - s.frame + 1 < m
  · rw [if_pos hlen] at h
    exact absurd h (by simp)
  · rw [if_neg hlen] at h
    exact ⟨(Option.some_injective _ h).symm, not_lt.mp hlen⟩

theorem mem_build_ranges (hits : List BlackFrameHit) (m : ℤ) (r : BlackRange)
    (hr : r ∈ build_ranges hits m) :
    ∃ g, g ∈ groupRuns (sortHits hits) ∧ finalize m g = some r := by
  cases hits with
  | nil => simp [build_ranges] at hr
  | cons a t =>
    rw [build_ranges] at hr
    obtain ⟨g, hg, hfin⟩ := List.mem_filterMap.mp hr
    exact ⟨g, hg, hfin⟩

theorem pairwise_lt_sortHits (hits : List BlackFrameHit)
    (hnd : (hits.map (fun h => h.frame)).Nodup) :
    (sortHits hits).Pairwise (fun a b => a.frame < b.frame) := by
  have hsorted : (sortHits hits).Pairwise hit_le := List.sorted_insertionSort hit_le hits
  have hperm : List.Perm (sortHits hits) hits := List.perm_insertionSort hit_le hits
  have hnd' : ((sortHits hits).map (fun h => h.frame)).Nodup :=
    ((hperm.map (fun h => h.frame)).nodup_iff).mpr hnd
  have hne : (sortHits hits).Pairwise (fun a b => a.frame ≠ b.frame) :=
    List.pairwise_map.mp hnd'
  exact (hsorted.and hne).imp (fun hab => lt_of_le_of_ne hab.1 hab.2)

theorem pairwise_groupRuns_sortHits (hits : List BlackFrameHit)
    (hnd : (hits.map (fun h => h.frame)).Nodup) :
    (groupRuns (sortHits hits)).Pairwise
      (fun g g' => ∀ x ∈ g, ∀ y ∈ g', x.frame < y.frame) := by
  have hlt := pairwise_lt_sortHits hits hnd
  rw [← groupRuns_flatten (sortHits hits)] at hlt
  exact (List.pairwise_flatten.mp hlt).2

theorem build_ranges_pairwise (hits : List BlackFrameHit) (m : ℤ)
    (hnd : (hits.map (fun h => h.frame)).Nodup) :
    (build_ranges hits m).Pairwise (fun a b => a.end_frame < b.start_frame) := by
  cases hits with
  | nil => simp [build_ranges]
  | cons a t =>
    rw [build_ranges]
    refine List.Pairwise.filterMap (finalize m) ?_ (pairwise_groupRuns_sortHits (a :: t) hnd)
    intro g g' hlt r hr r' hr'
    rw [Option.mem_def] at hr hr'
    cases g with
    | nil => rw [finalize] at hr; exact absurd hr (by simp)
    | cons s rest =>
      cases g' with
      | nil => rw [finalize] at hr'; exact absurd hr' (by simp)
      | cons s' rest' =>
        obtain ⟨hreq, -⟩ := finalize_eq_some m s rest r hr
        obtain ⟨hreq', -⟩ := finalize_eq_some m s' rest' r' hr'
        subst hreq
        subst hreq'
        exact hlt (rest.getLastD s) (getLastD_mem_cons rest s) s' (List.mem_cons_self s' rest')

theorem build_ranges_length_facts (hits : List BlackFrameHit) (m : ℤ) :
    ∀ r ∈ build_ranges hits m,
      r.start_frame ≤ r.end_frame ∧ r.length_frames = r.end_frame - r.start_frame + 1 ∧
        m ≤ r.length_frames := by
  intro r hr
  obtain ⟨g, hgmem, hfin⟩ := mem_build_ranges hits m r hr
  cases g with
  | nil => rw [finalize] at hfin; exact absurd hfin (by simp)
  | cons s rest =>
    obtain ⟨hreq, hmle⟩ := finalize_eq_some m s rest r hfin
    have hchain := groupRuns_chain (sortHits hits) (s :: rest) hgmem
    have hle := chain_head_le_getLastD rest s hchain
    subst hreq
    exact ⟨hle, rfl, hmle⟩

theorem foldl_min_le (l : List ℚ) (a : ℚ) :
    l.foldl min a ≤ a ∧ ∀ y ∈ l, l.foldl min a ≤ y := by
  induction l generalizing a with
  | nil => exact ⟨le_refl a, by simp⟩
  | cons b t ih =>
    rw [List.foldl_cons]
    obtain ⟨h1, h2⟩ := ih (min a b)
    refine ⟨le_trans h1 (min_le_left a b), ?_⟩
    intro y hy
    rcases List.mem_cons.mp hy with hyb | hyt
    · subst hyb
      exact le_trans h1 (min_le_right a y)
    · exact h2 y hyt

theorem foldl_min_mem (l : List ℚ) (a : ℚ) : l.foldl min a = a ∨ l.foldl min a ∈ l := by
  induction l generalizing a with
  | nil => exact Or.inl rfl
  | cons b t ih =>
    rw [List.foldl_cons]
    rcases ih (min a b) with h | h
    · rcases min_choice a b with hm | hm
      · exact Or.inl (h.trans hm)
      · exact Or.inr (by rw [h, hm]; exact List.mem_cons_self b t)
    · exact Or.inr (List.mem_cons_of_mem b h)

theorem min?_spec (l : List ℚ) (hne : l ≠ []) :
    ∃ x, l.min? = some x ∧ x ∈ l ∧ ∀ y ∈ l, x ≤ y := by
  cases l with
  | nil => exact absurd rfl hne
  | cons a t =>
    refine ⟨t.foldl min a, rfl, ?_, ?_⟩
    · rcases foldl_min_mem t a with h | h
      · rw [h]
        exact List.mem_cons_self a t
      · exact List.mem_cons_of_mem a h
    · intro y hy
      rcases List.mem_cons.mp hy with hya | hyt
      · rw [hya]
        exact (foldl_min_le t a).1
      · exact (foldl_min_le t a).2 y hyt

/-! ### Claim theorems -/

/-- C3, counterexample: the claim quantifies over every list of
detections, but on duplicate frame indices `build_ranges` emits
overlapping ranges.  With detections at frames `[5, 5]` and
`min_run_frames = 1` it returns the range `[5, 5]` twice, and the two
emitted ranges overlap (neither ends before the other starts). -/
theorem c3_range_invariants_counterexample :
    build_ranges [bareHit 5, bareHit 5] 1 =
        [⟨5, 5, none, none, 1, none, none⟩, ⟨5, 5, none, none, 1, none, none⟩] ∧
      ¬ (build_ranges [bareHit 5, bareHit 5] 1).Pairwise
          (fun a b => a.end_frame < b.start_frame ∨ b.end_frame < a.start_frame) := by
  have heq : build_ranges [bareHit 5, bareHit 5] 1 =
      [⟨5, 5, none, none, 1, none, none⟩, ⟨5, 5, none, none, 1, none, none⟩] := by decide
  refine ⟨heq, ?_⟩
  rw [heq]
  intro hp
  have h01 := List.rel_of_pairwise_cons hp (List.mem_singleton.mpr rfl)
  rcases h01 with h | h <;> exact absurd h (by decide)

/-- C3 (amended): every range emitted by `build_ranges` satisfies
`length_frames = end_frame - start_frame + 1`, `length_frames >=
min_run_frames` (strict `>=`, so a length-1 range passes when
`min_run_frames = 1`) and `start_frame <= end_frame`; and provided the
detections carry pairwise distinct frame indices, the emitted ranges are
strictly ordered by start frame and pairwise non-overlapping (each range
ends before the next begins). -/
theorem c3_range_invariants (hits : List BlackFrameHit) (m : ℤ) :
    (∀ r ∈ build_ranges hits m,
        r.start_frame ≤ r.end_frame ∧
          r.length_frames = r.end_frame - r.start_frame + 1 ∧ m ≤ r.length_frames) ∧
      ((hits.map (fun h => h.frame)).Nodup →
        (build_ranges hits m).Pairwise (fun a b => a.end_frame < b.start_frame)) :=
  ⟨build_ranges_length_facts hits m, fun hnd => build_ranges_pairwise hits m hnd⟩

/-- C3, witness: the amended theorem applied to detections at frames
`[10, 11, 12]` with `min_run_frames = 1`. -/
theorem c3_range_invariants_witness :
    ((⟨10, 12, none, none, 3, none, none⟩ : BlackRange).start_frame ≤
          (⟨10, 12, none, none, 3, none, none⟩ : BlackRange).end_frame ∧
        (⟨10, 12, none, none, 3, none, none⟩ : BlackRange).length_frames =
          (⟨10, 12, none, none, 3, none, none⟩ : BlackRange).end_frame -
            (⟨10, 12, none, none, 3, none, none⟩ : BlackRange).start_frame + 1 ∧
        (1 : ℤ) ≤ (⟨10, 12, none, none, 3, none, none⟩ : BlackRange).length_frames) ∧
      (build_ranges [bareHit 10, bareHit 11, bareHit 12] 1).Pairwise
        (fun a b => a.end_frame < b.start_frame) :=
  ⟨(c3_range_invariants [bareHit 10, bareHit 11, bareHit 12] 1).1
      ⟨10, 12, none, none, 3, none, none⟩ (by decide),
    (c3_range_invariants [bareHit 10, bareHit 11, bareHit 12] 1).2 (by decide)⟩

/-- C5: detections at frames `[10, 11, 12, 15, 16]` with
`min_run_frames = 1` produce exactly the two ranges `[10, 12]` (length 3)
and `[15, 16]` (length 2) in that order, and with `min_run_frames = 3`
exactly the single range `[10, 12]`. -/
theorem c5_worked_example :
    build_ranges [bareHit 10, bareHit 11, bareHit 12, bareHit 15, bareHit 16] 1 =
        [⟨10, 12, none, none, 3, none, none⟩, ⟨15, 16, none, none, 2, none, none⟩] ∧
      build_ranges [bareHit 10, bareHit 11, bareHit 12, bareHit 15, bareHit 16] 3 =
        [⟨10, 12, none, none, 3, none, none⟩] := by
  decide

/-- C7: `build_ranges` on an empty detection list returns the empty range
list rather than failing; and every emitted range comes from one run of
the grouped sorted detections whose average blackness is the arithmetic
mean of exactly the present `pblack` values of that run (absent when
none is present, never treated as zero) and whose minimum blackness is
the least present value (absent when none is present). -/
theorem c7_blackness_stats (hits : List BlackFrameHit) (m : ℤ) :
    build_ranges ([] : List BlackFrameHit) m = [] ∧
      ∀ r ∈ build_ranges hits m,
        ∃ g, g ∈ groupRuns (sortHits hits) ∧ finalize m g = some r ∧
          (g.filterMap (fun h => h.pblack) = [] →
            r.avg_pblack = none ∧ r.min_pblack = none) ∧
          (g.filterMap (fun h => h.pblack) ≠ [] →
            r.avg_pblack = some ((g.filterMap (fun h => h.pblack)).sum /
                ((g.filterMap (fun h => h.pblack)).length : ℚ)) ∧
              ∃ x, r.min_pblack = some x ∧ x ∈ g.filterMap (fun h => h.pblack) ∧
                ∀ y ∈ g.filterMap (fun h => h.pblack), x ≤ y) := by
  refine ⟨rfl, ?_⟩
  intro r hr
  obtain ⟨g, hgmem, hfin⟩ := mem_build_ranges hits m r hr
  cases g with
  | nil => rw [finalize] at hfin; exact absurd hfin (by simp)
  | cons s rest =>
    obtain ⟨hreq, -⟩ := finalize_eq_some m s rest r hfin
    refine ⟨s :: rest, hgmem, hfin, ?_, ?_⟩
    · intro hemp
      subst hreq
      constructor
      · show (if ((s :: rest).filterMap (fun h => h.pblack)).isEmpty then none
          else some _) = none
        rw [hemp]
        rfl
      · show ((s :: rest).filterMap (fun h => h.pblack)).min? = none
        rw [hemp]
        rfl
    · intro hne
      obtain ⟨x, hx, hxmem, hxle⟩ := min?_spec ((s :: rest).filterMap (fun h => h.pblack)) hne
      subst hreq
      constructor
      · show (if ((s :: rest).filterMap (fun h => h.pblack)).isEmpty then none
          else some (((s :: rest).filterMap (fun h => h.pblack)).sum /
            (((s :: rest).filterMap (fun h => h.pblack)).length : ℚ))) = some _
        rw [if_neg (by simpa using hne)]
      · exact ⟨x, hx, hxmem, hxle⟩

/-- C7, witness: the theorem applied to the single detection at frame 1
with no blackness value; the emitted range has absent average and
minimum blackness. -/
theorem c7_blackness_stats_witness :
    ∃ g, g ∈ groupRuns (sortHits [bareHit 1]) ∧
      finalize 1 g = some ⟨1, 1, none, none, 1, none, none⟩ ∧
      (g.filterMap (fun h => h.pblack) = [] →
        (⟨1, 1, none, none, 1, none, none⟩ : BlackRange).avg_pblack = none ∧
          (⟨1, 1, none, none, 1, none, none⟩ : BlackRange).min_pblack = none) ∧
      (g.filterMap (fun h => h.pblack) ≠ [] →
        (⟨1, 1, none, none, 1, none, none⟩ : BlackRange).avg_pblack =
            some ((g.filterMap (fun h => h.pblack)).sum /
              ((g.filterMap (fun h => h.pblack)).length : ℚ)) ∧
          ∃ x, (⟨1, 1, none, none, 1, none, none⟩ : BlackRange).min_pblack = some x ∧
            x ∈ g.filterMap (fun h => h.pblack) ∧
            ∀ y ∈ g.filterMap (fun h => h.pblack), x ≤ y) :=
  (c7_blackness_stats [bareHit 1] 1).2 ⟨1, 1, none, none, 1, none, none⟩ (by decide)

/-- C2, counterexample: feeding the single chunk `"x\r\ny"` yields the
complete line `"x"` and remainder `"y"`; re-joining with the line
separator gives `"x\ny"`, which differs from the original input in the
middle (the carriage return is gone), not merely by a trailing newline.
The carriage-return stripping (and, likewise, empty-line suppression)
makes the exact round-trip claim false. -/
theorem c2_roundtrip_counterexample :
    reconstruct (feed_all [] ["x\r\ny".toList]).1 (feed_all [] ["x\r\ny".toList]).2 ≠
        "x\r\ny".toList ∧
      reconstruct (feed_all [] ["x\r\ny".toList]).1 (feed_all [] ["x\r\ny".toList]).2 ++
          ['\n'] ≠ "x\r\ny".toList ∧
      reconstruct (feed_all [] ["x\r\ny".toList]).1 (feed_all [] ["x\r\ny".toList]).2 ≠
        "x\r\ny".toList ++ ['\n'] := by
  decide

/-- C2 (amended): for every carried buffer free of newlines and every
sequence of fed chunks, concatenating the returned complete lines (each
restored with its newline separator) followed by the final remainder
reconstructs the concatenated input exactly up to the splitter's two
normalisations: each complete line loses its trailing carriage returns,
and fully empty complete lines are dropped.  The unterminated tail is
never lost. -/
theorem c2_splitter_roundtrip (buf : List Char) (chunks : List (List Char))
    (hbuf : '\n' ∉ buf) :
    reconstruct (feed_all buf chunks).1 (feed_all buf chunks).2 =
      normalize_stream (buf ++ chunks.flatten) :=
  feed_all_reconstruct chunks buf hbuf

/-- C2, witness: the amended theorem applied to the chunk sequence
`["ab", "c\nde\r", "\nf\n\ng"]` from the empty buffer. -/
theorem c2_splitter_roundtrip_witness :
    reconstruct
        (feed_all [] ["ab".toList, "c\nde\r".toList, "\nf\n\ng".toList]).1
        (feed_all [] ["ab".toList, "c\nde\r".toList, "\nf\n\ng".toList]).2 =
      normalize_stream ([] ++ (["ab".toList, "c\nde\r".toList, "\nf\n\ng".toList]).flatten) :=
  c2_splitter_roundtrip [] ["ab".toList, "c\nde\r".toList, "\nf\n\ng".toList] (by decide)

/-- C8: a probe frame-rate string with a zero denominator, such as
`"0/0"`, parses to an undefined (absent) frame rate — not to zero — and
the guarded conditional never evaluates the division, so no
divide-by-zero fault occurs: any two-part rate string whose denominator
parses to zero yields `none`. -/
theorem c8_frame_rate_zero_denominator :
    parse_frame_rate "0/0".toList = none ∧
      parse_frame_rate "0/0".toList ≠ some 0 ∧
      ∀ rate num den : List Char, splitOnChar '/' rate = [num, den] →
        parse_float den = some 0 → parse_frame_rate rate = none := by
  refine ⟨by decide, by decide, ?_⟩
  intro rate num den hsplit hzero
  cases hnum : parse_float num with
  | none => simp [parse_frame_rate, hsplit, hnum]
  | some n => simp [parse_frame_rate, hsplit, hnum, hzero]

/-- C8, witness: the general zero-denominator clause applied to the rate
string `"30000/0"`. -/
theorem c8_frame_rate_zero_denominator_witness :
    parse_frame_rate "30000/0".toList = none :=
  c8_frame_rate_zero_denominator.2.2 "30000/0".toList "30000".toList "0".toList
    (by decide) (by decide)

/-- C9: the ETA is suppressed whenever the fraction is nonpositive, the
analysis start time is unset, or the elapsed wall-clock time is below
the 0.5-second warm-up threshold; otherwise the remaining time is
`elapsed / fraction - elapsed`, floored at 0 by the `max`. -/
theorem c9_eta_warmup_and_formula (frac el : ℚ) :
    (frac ≤ 0 → update_progress_eta frac (some el) = none) ∧
      update_progress_eta frac none = none ∧
      (el < half → update_progress_eta frac (some el) = none) ∧
      (0 < frac → half ≤ el →
        update_progress_eta frac (some el) = some (max 0 (el / frac - el))) := by
  refine ⟨?_, ?_, ?_, ?_⟩
  · intro h
    rw [update_progress_eta, if_pos h]
  · by_cases hf : frac ≤ 0
    · rw [update_progress_eta, if_pos hf]
    · rw [update_progress_eta, if_neg hf]
  · intro h
    by_cases hf : frac ≤ 0
    · rw [update_progress_eta, if_pos hf]
    · rw [update_progress_eta, if_neg hf]
      show (if el < half then none else some (max 0 (el / frac - el))) = none
      rw [if_pos h]
  · intro hf hel
    rw [update_progress_eta, if_neg (not_le.mpr hf)]
    show (if el < half then none else some (max 0 (el / frac - el))) = some (max 0 (el / frac - el))
    rw [if_neg (not_lt.mpr hel)]

/-- C9, witness: the formula clause applied at fraction 1 and elapsed
time 1 second. -/
theorem c9_eta_warmup_and_formula_witness :
    update_progress_eta 1 (some 1) = some (max 0 (1 / 1 - 1)) :=
  (c9_eta_warmup_and_formula 1 1).2.2.2 (by decide) (by decide)

/-- C6: an `out_time_ms=` progress line is interpreted as microseconds —
for a positive known duration the displayed fraction is the line's value
divided by the duration converted to integer microseconds, clamped to
`[0, 1]`; in particular `out_time_ms=2500000` against a known duration
of 5.0 seconds gives exactly 1/2. -/
theorem c6_out_time_is_microseconds (d : ℚ) (line : List Char) (us : ℕ) :
    (0 < d → parse_out_time_ms line = some us →
      on_progress_line (some d) line =
        some (max 0 (min 1 ((us : ℚ) / ((⌊d * 1000000⌋ : ℤ) : ℚ))))) ∧
      on_progress_line (some 5) "out_time_ms=2500000".toList = some (1 / 2) := by
  constructor
  · intro hd hparse
    simp only [on_progress_line, hparse, if_pos hd]
    rfl
  · have hparse : parse_out_time_ms "out_time_ms=2500000".toList = some 2500000 := by decide
    simp only [on_progress_line, hparse, if_pos (by norm_num : (0 : ℚ) < 5)]
    have hfloor : ⌊(5 : ℚ) * 1000000⌋ = (5000000 : ℤ) := by norm_num
    simp only [progress_fraction, hfloor]
    have hdiv : ((2500000 : ℕ) : ℚ) / ((5000000 : ℤ) : ℚ) = 1 / 2 := by
      push_cast
      norm_num
    rw [hdiv, min_eq_right (by norm_num : (1 : ℚ) / 2 ≤ 1),
      max_eq_right (by norm_num : (0 : ℚ) ≤ 1 / 2)]

/-- C6, witness: the general clause applied to duration 5 s and the line
`out_time_ms=2500000`. -/
theorem c6_out_time_is_microseconds_witness :
    on_progress_line (some 5) "out_time_ms=2500000".toList =
      some (max 0 (min 1 (((2500000 : ℕ) : ℚ) / ((⌊(5 : ℚ) * 1000000⌋ : ℤ) : ℚ)))) :=
  (c6_out_time_is_microseconds 5 "out_time_ms=2500000".toList 2500000).1
    (by decide) (by decide)

/-- C10 (amended): the fraction (and its division) is computed only when
the file's duration is known and strictly positive — an unknown or zero
duration skips the line, leaving the display indeterminate.  The actual
divisor, however, is the duration truncated to integer microseconds, so
it is nonzero only for durations of at least one microsecond; the
division-by-zero is unreachable under that extra bound, not for every
positive duration. -/
theorem c10_fraction_guard :
    (∀ (dopt : Option ℚ) (line : List Char) (f : ℚ),
        on_progress_line dopt line = some f → ∃ d, dopt = some d ∧ 0 < d) ∧
      (∀ line, on_progress_line none line = none) ∧
      (∀ line, on_progress_line (some 0) line = none) ∧
      (∀ d : ℚ, usec ≤ d → ⌊d * 1000000⌋ ≠ 0) := by
  have husec : usec = 1 / 1000000 := by
    rw [usec, Rat.mk'_eq_divInt, Rat.divInt_eq_div]
    norm_num
  refine ⟨?_, ?_, ?_, ?_⟩
  · intro dopt line f h
    cases hp : parse_out_time_ms line with
    | none => simp [on_progress_line, hp] at h
    | some us =>
      cases dopt with
      | none => simp [on_progress_line, hp] at h
      | some d =>
        by_cases hd : 0 < d
        · exact ⟨d, rfl, hd⟩
        · simp [on_progress_line, hp, if_neg hd] at h
  · intro line
    cases hp : parse_out_time_ms line with
    | none => simp [on_progress_line, hp]
    | some us => simp [on_progress_line, hp]
  · intro line
    cases hp : parse_out_time_ms line with
    | none => simp [on_progress_line, hp]
    | some us => simp [on_progress_line, hp]
  · intro d hd
    rw [husec] at hd
    have h1 : (1 : ℚ) ≤ d * 1000000 := by
      rw [div_le_iff₀ (by norm_num : (0 : ℚ) < 1000000)] at hd
      linarith
    have h2 : (1 : ℤ) ≤ ⌊d * 1000000⌋ := Int.le_floor.mpr (by exact_mod_cast h1)
    omega

/-- C10, counterexample: the claim's safety conclusion fails without the
microsecond bound — the duration `1/2000000` s (half a microsecond) is
known and strictly positive, so the guard passes and the line is
processed, yet the integer-microsecond divisor `int(duration * 1e6)` is
0; in Python the division `out_time_us / dur_us` then raises
`ZeroDivisionError` rather than being unreachable. -/
theorem c10_fraction_guard_counterexample :
    (0 : ℚ) < 1 / 2000000 ∧ ⌊((1 : ℚ) / 2000000) * 1000000⌋ = 0 ∧
      on_progress_line (some (1 / 2000000)) "out_time_ms=1".toList ≠ none := by
  refine ⟨by norm_num, ?_, ?_⟩
  · have h : ((1 : ℚ) / 2000000) * 1000000 = 1 / 2 := by norm_num
    rw [h, Int.floor_eq_zero_iff]
    constructor <;> norm_num
  · have hp : parse_out_time_ms "out_time_ms=1".toList = some 1 := by decide
    simp only [on_progress_line, hp, if_pos (by norm_num : (0 : ℚ) < 1 / 2000000)]
    simp

/-- C10, witness: the amended divisor bound applied at duration 1 s. -/
theorem c10_fraction_guard_witness : ⌊(1 : ℚ) * 1000000⌋ ≠ 0 :=
  c10_fraction_guard.2.2.2 1 (by decide)

/-- C1: in a batch every queued file yields exactly one committed
outcome (a failure never halts the queue — the outcome list has one
entry per queued file, in order, keyed by the same path); a probe
failure, an analyze start failure, or a nonzero analyze exit commit the
file with empty detection and range lists plus the corresponding failure
label, and in the nonzero-exit case the detections already parsed for
that file are discarded from the stored results. -/
theorem c1_failure_isolation (g : Bool) (m : ℤ) (files : List (String × FileEvent)) :
    (run_batch g m files).length = files.length ∧
      ∀ (i : ℕ) (hf : i < files.length) (hr : i < (run_batch g m files).length),
        ((run_batch g m files).get ⟨i, hr⟩).1 = (files.get ⟨i, hf⟩).1 ∧
          ((files.get ⟨i, hf⟩).2 = FileEvent.probeFail →
            ((run_batch g m files).get ⟨i, hr⟩).2 = ⟨[], [], some "FAILED - probe"⟩) ∧
          ((files.get ⟨i, hf⟩).2 = FileEvent.analyzeStartFail →
            ((run_batch g m files).get ⟨i, hr⟩).2 = ⟨[], [], some "FAILED - ffmpeg start"⟩) ∧
          (∀ (hs : List BlackFrameHit) (code : ℤ),
            (files.get ⟨i, hf⟩).2 = FileEvent.analyzeExit hs code → code ≠ 0 →
              ((run_batch g m files).get ⟨i, hr⟩).2 = ⟨[], [], some "FAILED"⟩) := by
  refine ⟨by simp [run_batch], ?_⟩
  intro i hf hr
  have hget : (run_batch g m files).get ⟨i, hr⟩ =
      ((files.get ⟨i, hf⟩).1, process_file g m (files.get ⟨i, hf⟩).2) := by
    simp [run_batch, List.get_eq_getElem, List.getElem_map]
  rw [hget]
  refine ⟨rfl, ?_, ?_, ?_⟩
  · intro he
    rw [he]
    rfl
  · intro he
    rw [he]
    rfl
  · intro hs code he hcode
    rw [he]
    simp [process_file, if_pos hcode, record_failure]

/-- C1, witness: a four-file batch in which file 1 fails its probe,
file 2 exits nonzero after streaming one detection, file 3 succeeds and
file 4 fails to start — the nonzero exit commits empty results. -/
theorem c1_failure_isolation_witness :
    ((run_batch true 1 [("a", FileEvent.probeFail),
        ("b", FileEvent.analyzeExit [bareHit 3] 1),
        ("c", FileEvent.analyzeExit [bareHit 4] 0),
        ("d", FileEvent.analyzeStartFail)]).get ⟨1, by decide⟩).2 =
      ⟨[], [], some "FAILED"⟩ :=
  ((c1_failure_isolation true 1 [("a", FileEvent.probeFail),
        ("b", FileEvent.analyzeExit [bareHit 3] 1),
        ("c", FileEvent.analyzeExit [bareHit 4] 0),
        ("d", FileEvent.analyzeStartFail)]).2 1 (by decide) (by decide)).2.2.2
    [bareHit 3] 1 (by decide) (by decide)

/-- C4, counterexample: on process exit only the stderr splitter's
remainder is flushed through a parser — `_on_ffmpeg_finished` never
reads `self._stdout_buf`.  With an unterminated final progress line
`progress=end` buffered on stdout, the handler processes no progress
event, while the spec-following variant (flushing both remainders)
recognises the end-of-stream event; the two differ, so a progress event
in an unterminated final stdout line is lost. -/
theorem c4_flush_counterexample :
    on_ffmpeg_finished_flush ⟨"progress=end".toList, [], []⟩ = ([], []) ∧
      spec_finished_flush ⟨"progress=end".toList, [], []⟩ =
        ([], [ProgressEvent.endOfStream]) ∧
      on_ffmpeg_finished_flush ⟨"progress=end".toList, [], []⟩ ≠
        spec_finished_flush ⟨"progress=end".toList, [], []⟩ := by
  decide

/-- C4 (amended): on process exit the stderr splitter's buffered
remainder — but only it — is flushed as a final partial line through the
detection parser before completion: a detection parsed from the
unterminated final stderr line joins the file's detections, every
already-parsed detection is kept, and no progress event is processed
from the stdout remainder. -/
theorem c4_stderr_tail_flush (st : SessionTailState) (h : BlackFrameHit) :
    (parse_blackframe_line (rstrip_cr st.stderr_buf) = some h →
        h ∈ (on_ffmpeg_finished_flush st).1) ∧
      (∀ x ∈ st.hits, x ∈ (on_ffmpeg_finished_flush st).1) ∧
      (on_ffmpeg_finished_flush st).2 = [] := by
  refine ⟨?_, ?_, rfl⟩
  · intro hp
    by_cases hb : st.stderr_buf = []
    · rw [hb] at hp
      have hnone : parse_blackframe_line (rstrip_cr ([] : List Char)) = none := by decide
      rw [hnone] at hp
      exact absurd hp (by simp)
    · simp only [on_ffmpeg_finished_flush, if_pos hb, hp]
      exact List.mem_append_right _ (by simp)
  · intro x hx
    exact List.mem_append_left _ hx

/-- C4, witness: the amended theorem applied to a session whose stderr
remainder holds the unterminated detection line
`[Parsed_blackframe_1 @ 0x7f] frame:42 pblack:99 pts:1000`; the parsed
detection is present in the flushed result. -/
theorem c4_stderr_tail_flush_witness :
    (⟨42, none, some 99, some 1000⟩ : BlackFrameHit) ∈
      (on_ffmpeg_finished_flush
        ⟨[], "[Parsed_blackframe_1 @ 0x7f] frame:42 pblack:99 pts:1000".toList, []⟩).1 :=
  (c4_stderr_tail_flush
      ⟨[], "[Parsed_blackframe_1 @ 0x7f] frame:42 pblack:99 pts:1000".toList, []⟩
      ⟨42, none, some 99, some 1000⟩).1 (by decide)
